import Mathlib

/-!
Verification development for the `svn-commit-gen` VS Code extension.

The TypeScript sources are embedded shallowly: strings are `List Char`
(wrapped in `String` at the outermost interfaces), JavaScript regular
expression operations on whitespace are modelled by the executable
predicate `isWs` listing the code points matched by `\s`, and fallible
operations return `Except`.
-/

namespace SvnCommitGen

/-- Whitespace per the JavaScript `\s` character class (WhiteSpace and
LineTerminator code points), used by `match(/^\s*./)`, `trim()` and
`replace(/\s+/g, " ")` in the sources. -/
def isWs (c : Char) : Bool :=
  let n := c.toNat
  n == 9 || n == 10 || n == 11 || n == 12 || n == 13 || n == 32 ||
  n == 160 || n == 0x1680 || (0x2000 ≤ n && n ≤ 0x200A) ||
  n == 0x2028 || n == 0x2029 || n == 0x202F || n == 0x205F ||
  n == 0x3000 || n == 0xFEFF

/-- Left part of JavaScript `String.prototype.trim`: drop leading whitespace. -/
def trimLeft (l : List Char) : List Char := l.dropWhile isWs

/-- Right part of JavaScript `String.prototype.trim`: drop trailing whitespace. -/
def trimRight (l : List Char) : List Char := (l.reverse.dropWhile isWs).reverse

/-- JavaScript `String.prototype.trim`. -/
def jsTrim (l : List Char) : List Char := trimRight (trimLeft l)

/-- JavaScript `replace(/\s+/g, " ")`: every maximal run of whitespace becomes
a single space.  The flag records whether the previous character was
whitespace (in which case further whitespace of the same run is dropped). -/
def collapseWs : Bool → List Char → List Char
  | _, [] => []
  | prevWs, c :: t =>
    if isWs c then
      if prevWs then collapseWs true t else ' ' :: collapseWs true t
    else c :: collapseWs false t

/-- JavaScript `String.prototype.substring(0, n)` on a character list
(the negative-end case of the source clamps to `0`, as `Nat` subtraction
does). -/
def strTake (l : List Char) (n : Nat) : List Char := l.take n

/-- JavaScript `String.prototype.includes`: `pat` occurs as a contiguous
substring. -/
def strContains (l pat : List Char) : Bool :=
  l.tails.any fun t => pat.isPrefixOf t

/-- Configuration consumed by `DiffSimplifier` (`DiffConfig` in
`src/utils/diff/types`): enabled flag, context-line count, max line length. -/
structure DiffConfig where
  enabled : Bool
  contextLines : Nat
  maxLineLength : Nat
  deriving DecidableEq, Repr

namespace DiffSimplifier

/-- `DiffSimplifier.truncateLine`: a line longer than `maxLength` is cut to
its first `maxLength - 3` characters followed by `"..."`; shorter (or empty)
lines are returned unchanged. -/
def truncateLine (line : List Char) (maxLength : Nat) : List Char :=
  if line = [] ∨ line.length ≤ maxLength then line
  else line.take (maxLength - 3) ++ ['.', '.', '.']

/-- `DiffSimplifier.compressLine`: keep a leading diff marker (`+`, `-` or
space), keep at most two characters' worth of leading indentation as spaces,
trim and collapse the interior whitespace of the remaining content. -/
def compressLine (line : List Char) : List Char :=
  match line with
  | [] => []
  | c :: rest =>
    if c = '+' || c = ' ' || c = '-' then
      let indent := rest.takeWhile isWs
      let content := collapseWs false (jsTrim (rest.dropWhile isWs))
      c :: (if indent.length > 0 then List.replicate (min 2 indent.length) ' ' else []) ++ content
    else
      let indent := line.takeWhile isWs
      let content := collapseWs false (jsTrim (line.dropWhile isWs))
      (if indent.length > 0 then List.replicate (min 2 indent.length) ' ' else []) ++ content

/-- `DiffSimplifier.isHeaderLine`: the line starts with `Index:`, `===`,
`---` or `+++`. -/
def isHeaderLine (line : List Char) : Bool :=
  "Index:".data.isPrefixOf line || "===".data.isPrefixOf line ||
  "---".data.isPrefixOf line || "+++".data.isPrefixOf line

/-- `DiffSimplifier.isChangeLine`: the line starts with `+` or `-`. -/
def isChangeLine (line : List Char) : Bool :=
  match line with
  | [] => false
  | c :: _ => c == '+' || c == '-'

/-- The `"..."` marker pushed when a context run exceeds the budget. -/
def dotsMark : List Char := ['.', '.', '.']

/-- The per-line loop of `DiffSimplifier.simplify` with its `skipCount`
state: compress each line; a header line passes through; a change line is
truncated and resets the counter; a context line is truncated and kept while
the counter is below `contextLines`, replaced once by `"..."` when it equals
`contextLines`, and dropped afterwards. -/
def simplifyLines (C M : Nat) : Nat → List (List Char) → List (List Char)
  | _, [] => []
  | s, l :: ls =>
    let c := compressLine l
    if isHeaderLine c then c :: simplifyLines C M s ls
    else if isChangeLine c then truncateLine c M :: simplifyLines C M 0 ls
    else if s < C then truncateLine c M :: simplifyLines C M (s + 1) ls
    else if s = C then dotsMark :: simplifyLines C M (s + 1) ls
    else simplifyLines C M s ls

/-- `DiffSimplifier.simplify`: if simplification is disabled return the diff
unchanged, otherwise split on newlines, run the per-line loop with a zero
counter, and rejoin with newlines. -/
def simplify (cfg : DiffConfig) (diff : String) : String :=
  if !cfg.enabled then diff
  else ⟨List.intercalate ['\n'] (simplifyLines cfg.contextLines cfg.maxLineLength 0 (diff.data.splitOn '\n'))⟩

end DiffSimplifier

namespace OpenAIProvider

/-- Successful vendor reply, as read by `generateResponse`: the first
choice's message content (absent when `choices[0]?.message?.content` is
nullish) and the three optional usage counters. -/
structure Completion where
  content : Option String
  promptTokens : Option Nat
  completionTokens : Option Nat
  totalTokens : Option Nat
  deriving DecidableEq, Repr

/-- Return value of `generateResponse` (`AIResponse`): generated text plus
optional prompt/completion/total token counters. -/
structure AIResponse where
  content : String
  promptTokens : Option Nat
  completionTokens : Option Nat
  totalTokens : Option Nat
  deriving DecidableEq, Repr

/-- The slice of `AIRequestParams` that `generateResponse`'s control flow
depends on: the diff text and `params.model?.maxTokens?.input`. -/
structure AIRequestParams where
  diff : String
  modelInputTokens : Option Nat
  deriving DecidableEq, Repr

/-- A vendor call: from the attempt index and the truncated prompt to either
a completion or an error message.  The attempt index models the temporal
behaviour of the external API across the retry loop. -/
def Oracle := Nat → String → Except String Completion

/-- The retryable error phrase tested by
`error.message?.includes("maximum context length")`. -/
def ctxLenPhrase : List Char := "maximum context length".data

/-- Modelled from the spec: `LocalizationManager.format("openai.generation.failed", msg)`.
The localization catalog is an external collaborator; the wrapped message is
represented as the message key joined with the vendor error text. -/
def wrapGenFailed (m : String) : String := "openai.generation.failed: " ++ m

/-- Initial truncation budget `params.model?.maxTokens?.input || 16385`
(JavaScript `||`: an absent or zero limit falls back to `16385`). -/
def inputBudget (limit : Option Nat) : Nat :=
  match limit with
  | some n => if n = 0 then 16385 else n
  | none => 16385

/-- Build the returned `AIResponse` from a completion
(`completion.choices[0]?.message?.content || ""` plus the usage fields). -/
def mkAIResponse (c : Completion) : AIResponse :=
  ⟨c.content.getD "", c.promptTokens, c.completionTokens, c.totalTokens⟩

/-- The `while (true)` retry loop of `generateResponse`, indexed by the
remaining retry budget `maxRetries - retries`.  `Math.floor(maxInputLength * 0.8)`
is embedded as `maxLen * 4 / 5` in `Nat` (exact for the integer ranges
involved).  With the budget exhausted (`retries < maxRetries` false) any
failure is wrapped and thrown; otherwise a failure whose message contains
the context-length phrase shrinks the budget and retries. -/
def genLoop (oracle : Oracle) (diff : String) : Nat → Nat → Nat → Except String AIResponse
  | 0, attempt, maxLen =>
    match oracle attempt ⟨strTake diff.data maxLen⟩ with
    | .ok comp => .ok (mkAIResponse comp)
    | .error m => .error (wrapGenFailed m)
  | r + 1, attempt, maxLen =>
    match oracle attempt ⟨strTake diff.data maxLen⟩ with
    | .ok comp => .ok (mkAIResponse comp)
    | .error m =>
      if strContains m.data ctxLenPhrase
      then genLoop oracle diff r (attempt + 1) (maxLen * 4 / 5)
      else .error (wrapGenFailed m)

/-- `OpenAIProvider.generateResponse`: run the retry loop with
`retries = 0`, `maxRetries = 2` and the initial input budget. -/
def generateResponse (oracle : Oracle) (p : AIRequestParams) : Except String AIResponse :=
  genLoop oracle p.diff 2 0 (inputBudget p.modelInputTokens)

/-- Modelled from the spec's words for claim C1: at most three attempts at
budgets `b0`, `⌊0.8·b0⌋`, `⌊0.8·⌊0.8·b0⌋⌋`; a failure without the phrase, or
a third consecutive failure, throws the wrapped error with no further retry;
success on any attempt returns the text and optional counters. -/
def generateResponseSpec (oracle : Oracle) (p : AIRequestParams) : Except String AIResponse :=
  let b0 := inputBudget p.modelInputTokens
  let b1 := b0 * 4 / 5
  let b2 := b1 * 4 / 5
  match oracle 0 ⟨strTake p.diff.data b0⟩ with
  | .ok c => .ok (mkAIResponse c)
  | .error m0 =>
    if strContains m0.data ctxLenPhrase then
      match oracle 1 ⟨strTake p.diff.data b1⟩ with
      | .ok c => .ok (mkAIResponse c)
      | .error m1 =>
        if strContains m1.data ctxLenPhrase then
          match oracle 2 ⟨strTake p.diff.data b2⟩ with
          | .ok c => .ok (mkAIResponse c)
          | .error m2 => .error (wrapGenFailed m2)
        else .error (wrapGenFailed m1)
    else .error (wrapGenFailed m0)

end OpenAIProvider

namespace SvnProvider

/-- Modelled from the spec: the localized `"diff.noChanges"` message (the
localization catalog is an external collaborator). -/
def noChangesMsg : String := "diff.noChanges"

/-- `SvnProvider.getDiff`, with the `svn diff` subprocess result supplied as
`stdout`/`stderr` and the `enableDiffSimplification` setting as read from
configuration (`none` models an unset setting, falsy in JavaScript).
A non-empty error stream is thrown (and rethrown by the outer catch after a
notification); whitespace-only output throws the localized no-changes error;
otherwise the diff is returned, simplified when simplification is enabled. -/
def getDiff (cfg : DiffConfig) (enableSimplification : Option Bool)
    (stdout stderr : String) : Except String String :=
  if stderr ≠ "" then .error stderr
  else if (⟨jsTrim stdout.data⟩ : String) = "" then .error noChangesMsg
  else if enableSimplification = some true then .ok (DiffSimplifier.simplify cfg stdout)
  else .ok stdout

/-- Modelled from the spec's words for claim C6: an error-stream report
fails with that text; an empty error stream with empty or whitespace-only
standard output fails with the no-changes error; a non-empty diff is
returned, simplified exactly when simplification is enabled. -/
def getDiffSpec (cfg : DiffConfig) (enableSimplification : Option Bool)
    (stdout stderr : String) : Except String String :=
  if stderr.data = [] then
    if stdout.data.all isWs then .error noChangesMsg
    else if enableSimplification = some true then .ok (DiffSimplifier.simplify cfg stdout)
    else .ok stdout
  else .error stderr

end SvnProvider

namespace ConfigurationManager

/-- The `configCache : Map<string, any>`: a key either has no entry (`none`)
or an entry holding a JavaScript value that may itself be `undefined`
(`some none`). -/
def ConfigCache := String → Option (Option String)

/-- `Map.prototype.set` on the cache. -/
def cacheSet (c : ConfigCache) (k : String) (v : Option String) : ConfigCache :=
  fun k' => if k' = k then some v else c k'

/-- `ConfigurationManager.updateConfigCache`: for each changed key, re-read
the live value and store it only when it is not `undefined`. -/
def updateConfigCache (live : String → Option String) (changedKeys : List String)
    (c : ConfigCache) : ConfigCache :=
  changedKeys.foldl
    (fun acc k =>
      match live k with
      | some v => cacheSet acc k (some v)
      | none => acc)
    c

/-- `ConfigurationManager.getConfig` (after the prefix strip): with
`useCache` false, read the live store; otherwise populate a missing entry
from the live store and return the cached entry.  The result is the returned
value together with the possibly-updated cache. -/
def getConfig (live : String → Option String) (c : ConfigCache) (key : String)
    (useCache : Bool) : Option String × ConfigCache :=
  if !useCache then (live key, c)
  else
    match c key with
    | some v => (v, c)
    | none => (live key, cacheSet c key (live key))

end ConfigurationManager

namespace ReviewCodeCommand

/-- `path.basename`: the last `/`-separated component. -/
def basename (p : String) : String := ⟨(p.data.splitOn '/').getLastD []⟩

/-- Notifications observable in `ReviewCodeCommand.execute`'s batch body. -/
inductive Notif where
  | warnNoChangesFound
  | warnReviewFileFailed (fileName : String)
  | errReviewAllFailed
  | infoReviewComplete (count : Nat)
  deriving DecidableEq, Repr

/-- Per-file oracle for `scmProvider.getDiff`: a thrown error, or a result
that may be `undefined`. -/
def DiffOracle := String → Except String (Option String)

/-- Per-file oracle for `aiProvider?.generateCodeReview?.(...)`: a thrown
error, or a result whose `content` may be missing. -/
def ReviewOracle := String → String → Except String (Option String)

/-- The `diffs` map after the diff fan-out: an entry per resource whose
`getDiff` call returned a truthy diff (failures are caught and only logged). -/
def collectDiffs (dOr : DiffOracle) (resources : List String) : List (String × String) :=
  resources.filterMap fun r =>
    match dOr r with
    | .ok (some d) => if d = "" then none else some (r, d)
    | _ => none

/-- The `fileReviews` map after the review fan-out: an entry per diffed file
whose review produced truthy content. -/
def collectReviews (rOr : ReviewOracle) (diffs : List (String × String)) : List (String × String) :=
  diffs.filterMap fun pd =>
    match rOr pd.1 pd.2 with
    | .ok (some c) => if c = "" then none else some (pd.1, c)
    | _ => none

/-- The warning notifications raised inside the review fan-out: one per
diffed file whose review call threw, referencing the file's basename. -/
def reviewWarnings (rOr : ReviewOracle) (diffs : List (String × String)) : List Notif :=
  diffs.filterMap fun pd =>
    match rOr pd.1 pd.2 with
    | .error _ => some (.warnReviewFileFailed (basename pd.1))
    | _ => none

/-- Outcome of the batch body: the `fileReviews` handed to
`showReviewResults` (if reached) and the notifications raised. -/
structure BatchOutcome where
  rendered : Option (List (String × String))
  notifs : List Notif
  deriving DecidableEq, Repr

/-- The body of `ReviewCodeCommand.execute`'s progress callback over a
non-empty selection: collect diffs (failures isolated), warn and stop when
none succeeded; review each diffed file (failures isolated, each warned),
error when no review succeeded; otherwise render and report the count. -/
def executeBatch (dOr : DiffOracle) (rOr : ReviewOracle) (resources : List String) : BatchOutcome :=
  let diffs := collectDiffs dOr resources
  if diffs = [] then ⟨none, [.warnNoChangesFound]⟩
  else
    let reviews := collectReviews rOr diffs
    let warns := reviewWarnings rOr diffs
    if reviews = [] then ⟨none, warns ++ [.errReviewAllFailed]⟩
    else ⟨some reviews, warns ++ [.infoReviewComplete reviews.length]⟩

/-- `ReviewCodeCommand.escapeHtml`, one `replace(/x/g, ...)` pass. -/
def replaceAllChar (c : Char) (r : List Char) : List Char → List Char
  | [] => []
  | x :: t => (if x = c then r else [x]) ++ replaceAllChar c r t

/-- `ReviewCodeCommand.escapeHtml`: the five sequential global replaces, in
source order (`&` first). -/
def escapeHtml (l : List Char) : List Char :=
  replaceAllChar '\'' ("&#039;".data)
    (replaceAllChar '"' ("&quot;".data)
      (replaceAllChar '>' ("&gt;".data)
        (replaceAllChar '<' ("&lt;".data)
          (replaceAllChar '&' ("&amp;".data) l))))

/-- Per-character reading of `escapeHtml` (proved equal to it below). -/
def escapeChar (c : Char) : List Char :=
  if c = '&' then "&amp;".data
  else if c = '<' then "&lt;".data
  else if c = '>' then "&gt;".data
  else if c = '"' then "&quot;".data
  else if c = '\'' then "&#039;".data
  else [c]

end ReviewCodeCommand

open DiffSimplifier

/-! ### Structure of compressed lines

`compressLine` always produces an optional diff marker, at most two pad
spaces, and a body whose whitespace is single interior spaces.  These
lemmas capture that shape and show `compressLine` is the identity on it. -/

/-- Every whitespace character of `l` is a plain space. -/
def wsIsSpace (l : List Char) : Bool := l.all fun c => !isWs c || c == ' '

/-- No two adjacent characters of `l` are both whitespace. -/
def noAdjWs : List Char → Bool
  | [] => true
  | [_] => true
  | a :: b :: t => !(isWs a && isWs b) && noAdjWs (b :: t)

theorem noAdjWs_tail {a : Char} {t : List Char} (h : noAdjWs (a :: t) = true) :
    noAdjWs t = true := by
  cases t with
  | nil => rfl
  | cons b t' => exact (Bool.and_eq_true_iff.mp h).2

theorem head?_collapseWs_true {l : List Char} {c : Char}
    (h : (collapseWs true l).head? = some c) : isWs c = false := by
  induction l with
  | nil => simp [collapseWs] at h
  | cons x t ih =>
    cases hx : isWs x with
    | true =>
      rw [collapseWs, if_pos hx, if_pos rfl] at h
      exact ih h
    | false =>
      rw [collapseWs, if_neg (by simp [hx])] at h
      simp only [List.head?_cons, Option.some.injEq] at h
      rw [← h]
      exact hx

theorem collapseWs_true_eq_false {l : List Char}
    (h : ∀ c, l.head? = some c → isWs c = false) :
    collapseWs true l = collapseWs false l := by
  cases l with
  | nil => rfl
  | cons x t =>
    have hx : isWs x = false := h x rfl
    simp [collapseWs, hx]

theorem wsIsSpace_collapseWs (flag : Bool) (l : List Char) :
    wsIsSpace (collapseWs flag l) = true := by
  induction l generalizing flag with
  | nil => cases flag <;> rfl
  | cons x t ih =>
    cases hx : isWs x with
    | true =>
      cases flag with
      | true => simpa [collapseWs, hx] using ih true
      | false =>
        rw [collapseWs, if_pos hx, if_neg (by simp)]
        have := ih true
        simp only [wsIsSpace, List.all_cons, Bool.and_eq_true]
        exact ⟨by simp, this⟩
    | false =>
      cases flag <;>
        · rw [collapseWs, if_neg (by simp [hx])]
          have := ih false
          simp only [wsIsSpace, List.all_cons, Bool.and_eq_true]
          exact ⟨by simp [hx], this⟩

theorem noAdjWs_cons {a : Char} {t : List Char} (ha : noAdjWs t = true)
    (hh : ∀ c, t.head? = some c → isWs a = true → isWs c = false) :
    noAdjWs (a :: t) = true := by
  cases t with
  | nil => rfl
  | cons b t' =>
    have hb := hh b rfl
    simp only [noAdjWs, Bool.and_eq_true]
    refine ⟨?_, ha⟩
    cases hA : isWs a with
    | true => simp [hA, hb hA]
    | false => simp [hA]

theorem noAdjWs_collapseWs (flag : Bool) (l : List Char) :
    noAdjWs (collapseWs flag l) = true := by
  induction l generalizing flag with
  | nil => cases flag <;> rfl
  | cons x t ih =>
    cases hx : isWs x with
    | true =>
      cases flag with
      | true => simpa [collapseWs, hx] using ih true
      | false =>
        rw [collapseWs, if_pos hx, if_neg (by simp)]
        exact noAdjWs_cons (ih true) (fun c hc _ => head?_collapseWs_true hc)
    | false =>
      cases flag <;>
        · rw [collapseWs, if_neg (by simp [hx])]
          refine noAdjWs_cons (ih false) (fun c hc hxc => ?_)
          rw [hx] at hxc
          cases hxc

theorem collapseWs_fixed {l : List Char} (hs : wsIsSpace l = true)
    (ha : noAdjWs l = true) : collapseWs false l = l := by
  induction l with
  | nil => rfl
  | cons x t ih =>
    have hst : wsIsSpace t = true := by
      simp only [wsIsSpace, List.all_cons, Bool.and_eq_true] at hs
      exact hs.2
    cases hx : isWs x with
    | true =>
      have hxsp : x = ' ' := by
        simp only [wsIsSpace, List.all_cons, Bool.and_eq_true, Bool.or_eq_true,
          Bool.not_eq_eq_eq_not, Bool.not_true] at hs
        rcases hs.1 with h | h
        · rw [hx] at h; cases h
        · exact beq_iff_eq.mp h
      have hth : ∀ c, t.head? = some c → isWs c = false := by
        intro c hc
        cases t with
        | nil => cases hc
        | cons b t' =>
          simp only [List.head?_cons, Option.some.injEq] at hc
          subst hc
          simp only [noAdjWs, Bool.and_eq_true, Bool.not_eq_eq_eq_not, Bool.not_true,
            Bool.and_eq_false_iff] at ha
          rcases ha.1 with h | h
          · rw [hx] at h; cases h
          · exact h
      rw [collapseWs, if_pos hx, if_neg (by simp), collapseWs_true_eq_false hth,
        ih hst (noAdjWs_tail ha), hxsp]
    | false =>
      rw [collapseWs, if_neg (by simp [hx]), ih hst (noAdjWs_tail ha)]

/-- A list whose last character is not whitespace (or which is empty). -/
def LastNonWs (l : List Char) : Prop := ∀ c, l.getLast? = some c → isWs c = false

/-- A list whose first character is not whitespace (or which is empty). -/
def HeadNonWs (l : List Char) : Prop := ∀ c, l.head? = some c → isWs c = false

theorem head?_dropWhile_ws {l : List Char} : HeadNonWs (l.dropWhile isWs) := by
  intro c hc
  have h := List.head?_dropWhile_not isWs l
  rw [hc] at h
  exact h

theorem collapseWs_true_eq_nil {l : List Char} (h : collapseWs true l = []) :
    ∀ c ∈ l, isWs c = true := by
  induction l with
  | nil => intro c hc; cases hc
  | cons x t ih =>
    intro c hc
    cases hx : isWs x with
    | true =>
      rw [collapseWs, if_pos hx, if_pos rfl] at h
      rcases List.mem_cons.mp hc with rfl | hc'
      · exact hx
      · exact ih h c hc'
    | false => rw [collapseWs, if_neg (by simp [hx])] at h; cases h

theorem lastNonWs_collapseWs {l : List Char} (hl : LastNonWs l) (flag : Bool) :
    LastNonWs (collapseWs flag l) := by
  induction l generalizing flag with
  | nil => intro c hc; cases flag <;> cases hc
  | cons x t ih =>
    cases t with
    | nil =>
      have hx : isWs x = false := hl x rfl
      intro c hc
      rw [collapseWs, if_neg (by simp [hx])] at hc
      simp only [collapseWs, List.getLast?_cons, List.getLast?_nil, Option.getD_none,
        Option.some.injEq] at hc
      rw [← hc]
      exact hx
    | cons y t' =>
      have hlt : LastNonWs (y :: t') := by
        intro c hc
        exact hl c (by rw [List.getLast?_cons_cons]; exact hc)
      cases hx : isWs x with
      | true =>
        cases flag with
        | true =>
          rw [collapseWs, if_pos hx, if_pos rfl]
          exact ih hlt true
        | false =>
          rw [collapseWs, if_pos hx, if_neg (by simp)]
          intro c hc
          cases hnil : collapseWs true (y :: t') with
          | nil =>
            have hall := collapseWs_true_eq_nil hnil
            have hy : (y :: t').getLast? = some ((y :: t').getLast (by simp)) :=
              List.getLast?_eq_getLast _ _
            have hmem := List.mem_of_getLast?_eq_some hy
            have := hlt _ hy
            rw [hall _ hmem] at this
            cases this
          | cons z t'' =>
            rw [hnil, List.getLast?_cons_cons] at hc
            have := ih hlt true
            rw [hnil] at this
            exact this c hc
      | false =>
        rw [collapseWs, if_neg (by simp [hx])]
        intro c hc
        cases hnil : collapseWs false (y :: t') with
        | nil =>
          rw [hnil] at hc
          simp only [List.getLast?_singleton, Option.some.injEq] at hc
          rw [← hc]
          exact hx
        | cons z t'' =>
          rw [hnil, List.getLast?_cons_cons] at hc
          have := ih hlt false
          rw [hnil] at this
          exact this c hc

theorem head?_collapseWs_false {l : List Char} (hl : HeadNonWs l) :
    (collapseWs false l).head? = l.head? := by
  cases l with
  | nil => rfl
  | cons x t =>
    have hx : isWs x = false := hl x rfl
    rw [collapseWs, if_neg (by simp [hx])]
    simp

theorem trimRight_isPrefix (l : List Char) : trimRight l <+: l := by
  have h : (l.reverse.dropWhile isWs) <:+ l.reverse := List.dropWhile_suffix isWs
  have h2 := h.reverse
  rwa [List.reverse_reverse] at h2

theorem isPrefix_head? {l₁ l₂ : List Char} (h : l₁ <+: l₂) (hne : l₁ ≠ []) :
    l₂.head? = l₁.head? := by
  obtain ⟨r, rfl⟩ := h
  cases l₁ with
  | nil => cases hne rfl
  | cons x t => rfl

theorem lastNonWs_trimRight (l : List Char) : LastNonWs (trimRight l) := by
  intro c hc
  unfold trimRight at hc
  rw [List.getLast?_reverse] at hc
  exact head?_dropWhile_ws _ hc

theorem headNonWs_jsTrim (l : List Char) : HeadNonWs (jsTrim l) := by
  intro c hc
  unfold jsTrim at hc
  have hne : trimRight (trimLeft l) ≠ [] := by
    intro h; rw [h] at hc; cases hc
  have h2 := isPrefix_head? (trimRight_isPrefix (trimLeft l)) hne
  rw [hc] at h2
  exact head?_dropWhile_ws _ (by simpa [trimLeft] using h2)

theorem lastNonWs_jsTrim (l : List Char) : LastNonWs (jsTrim l) :=
  lastNonWs_trimRight _

theorem jsTrim_fixed {l : List Char} (hh : HeadNonWs l) (hl : LastNonWs l) :
    jsTrim l = l := by
  have h1 : trimLeft l = l := by
    cases l with
    | nil => rfl
    | cons x t =>
      have hx : isWs x = false := hh x rfl
      simp [trimLeft, List.dropWhile_cons, hx]
  have h2 : trimRight l = l := by
    unfold trimRight
    cases hrev : l.reverse with
    | nil =>
      have hnil : l = [] := by simpa using congrArg List.reverse hrev
      simp [hnil]
    | cons x t =>
      have hx : l.getLast? = some x := by
        rw [← List.head?_reverse, hrev]; rfl
      have hxw : isWs x = false := hl x hx
      have hdrop : (x :: t).dropWhile isWs = x :: t := by
        rw [List.dropWhile_cons, if_neg (by simp [hxw])]
      rw [hdrop, ← hrev, List.reverse_reverse]
  unfold jsTrim
  rw [h1, h2]

/-- A diff marker character recognized by `match(/^[+ -]/)`. -/
def MarkerChar (c : Char) : Prop := c = '+' ∨ c = ' ' ∨ c = '-'

/-- Shape of every `compressLine` result: an optional marker, at most two
pad spaces, and a body that starts and ends with non-whitespace, whose
whitespace characters are all plain spaces, never two in a row. -/
def CompressedShape (y : List Char) : Prop :=
  ∃ p k b, y = p ++ List.replicate k ' ' ++ b ∧ k ≤ 2 ∧
    (p = [] ∨ p = ['+'] ∨ p = ['-'] ∨ p = [' ']) ∧
    HeadNonWs b ∧ LastNonWs b ∧ wsIsSpace b = true ∧ noAdjWs b = true

theorem marker_bool_iff {c : Char} :
    (c = '+' || c = ' ' || c = '-' : Bool) = true ↔ MarkerChar c := by
  simp [MarkerChar, Bool.or_eq_true, decide_eq_true_eq]
  tauto

theorem pad_if_eq (n : Nat) :
    (if n > 0 then List.replicate (min 2 n) ' ' else []) = List.replicate (min 2 n) ' ' := by
  cases n with
  | zero => simp
  | succ m => simp

theorem takeWhile_ws_pad {b : List Char} (hb : HeadNonWs b) (k : Nat) :
    (List.replicate k ' ' ++ b).takeWhile isWs = List.replicate k ' ' := by
  induction k with
  | zero =>
    cases b with
    | nil => rfl
    | cons c t =>
      have hc : isWs c = false := hb c rfl
      simp [List.takeWhile_cons, hc]
  | succ m ih =>
    simp only [List.replicate_succ, List.cons_append, List.takeWhile_cons]
    rw [if_pos (by decide), ih]

theorem dropWhile_ws_pad {b : List Char} (hb : HeadNonWs b) (k : Nat) :
    (List.replicate k ' ' ++ b).dropWhile isWs = b := by
  induction k with
  | zero =>
    cases b with
    | nil => rfl
    | cons c t =>
      have hc : isWs c = false := hb c rfl
      simp [List.dropWhile_cons, hc]
  | succ m ih =>
    simp only [List.replicate_succ, List.cons_append, List.dropWhile_cons]
    rw [if_pos (by decide), ih]

theorem body_round_trip {b : List Char} (hh : HeadNonWs b) (hl : LastNonWs b)
    (hs : wsIsSpace b = true) (ha : noAdjWs b = true) :
    collapseWs false (jsTrim (b.dropWhile isWs)) = b := by
  have hd : b.dropWhile isWs = b := by
    cases b with
    | nil => rfl
    | cons c t =>
      have hc : isWs c = false := hh c rfl
      simp [List.dropWhile_cons, hc]
  rw [hd, jsTrim_fixed hh hl, collapseWs_fixed hs ha]

theorem compressLine_marker {c : Char} {b : List Char} {k : Nat}
    (hm : MarkerChar c) (hk : k ≤ 2) (hh : HeadNonWs b) (hl : LastNonWs b)
    (hs : wsIsSpace b = true) (ha : noAdjWs b = true) :
    compressLine (c :: (List.replicate k ' ' ++ b)) = c :: (List.replicate k ' ' ++ b) := by
  rw [compressLine]
  rw [if_pos (marker_bool_iff.mpr hm)]
  rw [takeWhile_ws_pad hh, dropWhile_ws_pad hh]
  rw [jsTrim_fixed hh hl, collapseWs_fixed hs ha]
  simp [pad_if_eq, List.length_replicate, Nat.min_eq_right hk, List.cons_append]

theorem compressLine_plain {c : Char} {t : List Char}
    (hm : ¬ MarkerChar c) (hh : HeadNonWs (c :: t)) (hl : LastNonWs (c :: t))
    (hs : wsIsSpace (c :: t) = true) (ha : noAdjWs (c :: t) = true) :
    compressLine (c :: t) = c :: t := by
  have hc : isWs c = false := hh c rfl
  rw [compressLine]
  rw [if_neg (fun h => hm (marker_bool_iff.mp h))]
  have htk : (c :: t).takeWhile isWs = [] := by
    simp [List.takeWhile_cons, hc]
  have hdr : (c :: t).dropWhile isWs = c :: t := by
    simp [List.dropWhile_cons, hc]
  rw [htk, hdr, jsTrim_fixed hh hl, collapseWs_fixed hs ha]
  simp

theorem compressLine_shape (x : List Char) : CompressedShape (compressLine x) := by
  cases x with
  | nil =>
    refine ⟨[], 0, [], rfl, by omega, Or.inl rfl, ?_, ?_, rfl, rfl⟩ <;>
      · intro c h; cases h
  | cons c rest =>
    rw [compressLine]
    by_cases hm : MarkerChar c
    · rw [if_pos (marker_bool_iff.mpr hm)]
      refine ⟨[c], min 2 (rest.takeWhile isWs).length,
        collapseWs false (jsTrim (rest.dropWhile isWs)), ?_, Nat.min_le_left _ _, ?_, ?_, ?_, ?_, ?_⟩
      · simp only [pad_if_eq, List.cons_append, List.nil_append]
      · rcases hm with h | h | h <;> simp [h]
      · intro d hd
        rw [head?_collapseWs_false (headNonWs_jsTrim _)] at hd
        exact headNonWs_jsTrim _ d hd
      · exact lastNonWs_collapseWs (lastNonWs_jsTrim _) false
      · exact wsIsSpace_collapseWs false _
      · exact noAdjWs_collapseWs false _
    · rw [if_neg (fun h => hm (marker_bool_iff.mp h))]
      refine ⟨[], min 2 (((c :: rest).takeWhile isWs)).length,
        collapseWs false (jsTrim ((c :: rest).dropWhile isWs)), ?_, Nat.min_le_left _ _,
        Or.inl rfl, ?_, ?_, ?_, ?_⟩
      · simp only [pad_if_eq, List.cons_append, List.nil_append]
      · intro d hd
        rw [head?_collapseWs_false (headNonWs_jsTrim _)] at hd
        exact headNonWs_jsTrim _ d hd
      · exact lastNonWs_collapseWs (lastNonWs_jsTrim _) false
      · exact wsIsSpace_collapseWs false _
      · exact noAdjWs_collapseWs false _

theorem lastNonWs_tail {a : Char} {l : List Char} (h : LastNonWs (a :: l)) :
    LastNonWs l := by
  intro c hc
  refine h c ?_
  cases l with
  | nil => cases hc
  | cons b t => rw [List.getLast?_cons_cons]; exact hc

theorem wsIsSpace_tail {a : Char} {l : List Char} (h : wsIsSpace (a :: l) = true) :
    wsIsSpace l = true := by
  simp only [wsIsSpace, List.all_cons, Bool.and_eq_true] at h
  exact h.2

theorem compressLine_fixed {y : List Char} (h : CompressedShape y) :
    compressLine y = y := by
  obtain ⟨p, k, b, rfl, hk, hp, hh, hl, hs, ha⟩ := h
  rcases hp with rfl | rfl | rfl | rfl
  · rw [List.nil_append]
    cases k with
    | succ j =>
      have hj : j ≤ 2 := by omega
      simpa [List.replicate_succ] using
        compressLine_marker (Or.inr (Or.inl rfl)) hj hh hl hs ha (k := j)
    | zero =>
      rw [List.replicate_zero, List.nil_append]
      cases b with
      | nil => rfl
      | cons c t =>
        have hc : isWs c = false := hh c rfl
        by_cases hm : MarkerChar c
        · cases t with
          | nil =>
            simpa using compressLine_marker hm (by omega) (b := []) (k := 0)
              (fun e he => by cases he) (fun e he => by cases he) rfl rfl
          | cons d t₂ =>
            have hst : wsIsSpace (d :: t₂) = true := wsIsSpace_tail hs
            have hat : noAdjWs (d :: t₂) = true := noAdjWs_tail ha
            have hlt : LastNonWs (d :: t₂) := lastNonWs_tail hl
            cases hd : isWs d with
            | true =>
              have hdsp : d = ' ' := by
                simp only [wsIsSpace, List.all_cons, Bool.and_eq_true, Bool.or_eq_true,
                  Bool.not_eq_eq_eq_not, Bool.not_true] at hst
                rcases hst.1 with h | h
                · rw [hd] at h; cases h
                · exact beq_iff_eq.mp h
              have hht₂ : HeadNonWs t₂ := by
                intro e he
                cases t₂ with
                | nil => cases he
                | cons f t₃ =>
                  simp only [List.head?_cons, Option.some.injEq] at he
                  subst he
                  simp only [noAdjWs, Bool.and_eq_true, Bool.not_eq_eq_eq_not,
                    Bool.not_true, Bool.and_eq_false_iff] at hat
                  rcases hat.1 with h | h
                  · rw [hd] at h; cases h
                  · exact h
              have hlt₂ : LastNonWs t₂ := lastNonWs_tail hlt
              have hst₂ : wsIsSpace t₂ = true := wsIsSpace_tail hst
              have hat₂ : noAdjWs t₂ = true := noAdjWs_tail hat
              have := compressLine_marker hm (by omega) hht₂ hlt₂ hst₂ hat₂ (k := 1)
              simpa [hdsp, List.replicate_succ] using this
            | false =>
              have hhd : HeadNonWs (d :: t₂) := by
                intro e he
                simp only [List.head?_cons, Option.some.injEq] at he
                subst he
                exact hd
              simpa using compressLine_marker hm (by omega) hhd hlt hst hat (k := 0)
        · exact compressLine_plain hm hh hl hs ha
  · simpa using compressLine_marker (Or.inl rfl) hk hh hl hs ha
  · simpa using compressLine_marker (Or.inr (Or.inr rfl)) hk hh hl hs ha
  · simpa using compressLine_marker (Or.inr (Or.inl rfl)) hk hh hl hs ha

theorem compressLine_idem (x : List Char) :
    compressLine (compressLine x) = compressLine x :=
  compressLine_fixed (compressLine_shape x)

theorem head?_take {l : List Char} {j : Nat} {c : Char} (h : (l.take j).head? = some c) :
    l.head? = some c := by
  cases l with
  | nil => simp at h
  | cons a t =>
    cases j with
    | zero => simp at h
    | succ j' => simpa using h

theorem wsIsSpace_take {l : List Char} (h : wsIsSpace l = true) (j : Nat) :
    wsIsSpace (l.take j) = true := by
  simp only [wsIsSpace, List.all_eq_true] at h ⊢
  exact fun c hc => h c (List.mem_of_mem_take hc)

theorem noAdjWs_take {l : List Char} (h : noAdjWs l = true) (j : Nat) :
    noAdjWs (l.take j) = true := by
  induction l generalizing j with
  | nil => simp [noAdjWs]
  | cons a t ih =>
    cases j with
    | zero => rfl
    | succ j' =>
      rw [List.take_succ_cons]
      refine noAdjWs_cons (ih (noAdjWs_tail h) j') ?_
      intro c hc haw
      have hc' : t.head? = some c := head?_take hc
      cases t with
      | nil => cases hc'
      | cons e t' =>
        simp only [List.head?_cons, Option.some.injEq] at hc'
        subst hc'
        simp only [noAdjWs, Bool.and_eq_true, Bool.not_eq_eq_eq_not, Bool.not_true,
          Bool.and_eq_false_iff] at h
        rcases h.1 with h' | h'
        · rw [haw] at h'; cases h'
        · exact h'

theorem noAdjWs_append_headNonWs {X d : List Char} (hX : noAdjWs X = true)
    (hd : noAdjWs d = true) (hhd : HeadNonWs d) : noAdjWs (X ++ d) = true := by
  induction X with
  | nil => simpa
  | cons a X' ih =>
    rw [List.cons_append]
    refine noAdjWs_cons (ih (noAdjWs_tail hX)) ?_
    intro c hc haw
    cases X' with
    | nil =>
      rw [List.nil_append] at hc
      exact hhd c hc
    | cons e X'' =>
      rw [List.cons_append, List.head?_cons, Option.some_inj] at hc
      subst hc
      simp only [noAdjWs, Bool.and_eq_true, Bool.not_eq_eq_eq_not, Bool.not_true,
        Bool.and_eq_false_iff] at hX
      rcases hX.1 with h' | h'
      · rw [haw] at h'; cases h'
      · exact h'

theorem truncateLine_shape {y : List Char} (h : CompressedShape y) (M : Nat) :
    CompressedShape (truncateLine y M) := by
  obtain ⟨p, k, b, rfl, hk, hp, hh, hl, hs, ha⟩ := h
  unfold truncateLine
  split
  · exact ⟨p, k, b, rfl, hk, hp, hh, hl, hs, ha⟩
  · refine ⟨p.take (M - 3), min (M - 3 - p.length) k,
      b.take (M - 3 - p.length - k) ++ ['.', '.', '.'], ?_, ?_, ?_, ?_, ?_, ?_, ?_⟩
    · rw [List.take_append_eq_append_take, List.take_append_eq_append_take,
        List.take_replicate]
      simp [List.append_assoc, Nat.sub_sub]
      omega
    · exact le_trans (Nat.min_le_right _ _) hk
    · rcases hp with rfl | rfl | rfl | rfl
      · exact Or.inl (List.take_nil)
      · cases hM : M - 3 with
        | zero => exact Or.inl rfl
        | succ m => exact Or.inr (Or.inl (by simp))
      · cases hM : M - 3 with
        | zero => exact Or.inl rfl
        | succ m => exact Or.inr (Or.inr (Or.inl (by simp)))
      · cases hM : M - 3 with
        | zero => exact Or.inl rfl
        | succ m => exact Or.inr (Or.inr (Or.inr (by simp)))
    · intro c hc
      cases htk : b.take (M - 3 - p.length - k) with
      | nil =>
        rw [htk, List.nil_append, List.head?_cons, Option.some_inj] at hc
        subst hc
        decide
      | cons e t =>
        rw [htk, List.cons_append, List.head?_cons, Option.some_inj] at hc
        subst hc
        exact hh e (head?_take
          (show (b.take (M - 3 - p.length - k)).head? = some e by rw [htk]; rfl))
    · intro c hc
      have hdl : (['.', '.', '.'] : List Char).getLast? = some '.' := rfl
      rw [List.getLast?_append, hdl] at hc
      have hc' : c = '.' := by
        cases hgl : (b.take (M - 3 - p.length - k)).getLast? <;>
          · rw [hgl] at hc
            simp [Option.or] at hc
            exact hc.symm
      subst hc'
      decide
    · simp only [wsIsSpace, List.all_append, Bool.and_eq_true]
      refine ⟨?_, by decide⟩
      exact wsIsSpace_take hs _
    · exact noAdjWs_append_headNonWs (noAdjWs_take ha _) (by decide)
        (fun c hc => by simp only [List.head?_cons, Option.some_inj] at hc; subst hc; decide)

theorem compressLine_truncateLine_fixed {y : List Char} (h : CompressedShape y) (M : Nat) :
    compressLine (truncateLine y M) = truncateLine y M :=
  compressLine_fixed (truncateLine_shape h M)

/-! ### Classification is stable under truncation -/

theorem not_prefix_truncated {pat y : List Char} {n : Nat}
    (hdot : '.' ∉ pat) (h : ¬ pat <+: y) (hn : n ≤ y.length) :
    ¬ pat <+: (y.take n ++ ['.', '.', '.']) := by
  intro hcontra
  by_cases hlen : pat.length ≤ n
  · have h1 : pat = ((y.take n) ++ ['.', '.', '.']).take pat.length :=
      List.prefix_iff_eq_take.mp hcontra
    rw [List.take_append_eq_append_take] at h1
    have hlt : (y.take n).length = n := by
      rw [List.length_take]
      omega
    rw [hlt] at h1
    have hz : pat.length - n = 0 := by omega
    rw [hz] at h1
    simp only [List.take_zero, List.append_nil, List.take_take] at h1
    rw [Nat.min_eq_left hlen] at h1
    exact h (List.prefix_iff_eq_take.mpr h1)
  · have hyp : (y.take n) <+: pat := by
      refine List.prefix_of_prefix_length_le (List.prefix_append _ _) hcontra ?_
      rw [List.length_take]
      omega
    obtain ⟨r, hr⟩ := hyp
    have hrd : r <+: (['.', '.', '.'] : List Char) := by
      rw [← hr] at hcontra
      exact (List.prefix_append_right_inj _).mp hcontra
    have hrne : r ≠ [] := by
      intro hnil
      rw [hnil, List.append_nil] at hr
      apply hlen
      rw [← hr, List.length_take]
      omega
    cases r with
    | nil => exact hrne rfl
    | cons c t =>
      have hc : c = '.' := (List.cons_prefix_cons.mp hrd).1
      apply hdot
      rw [← hr, hc]
      exact List.mem_append_right _ (List.mem_cons_self _ _)

theorem isChangeLine_truncateLine {c : List Char} {M : Nat} (hM : 4 ≤ M) :
    isChangeLine (truncateLine c M) = isChangeLine c := by
  unfold truncateLine
  split
  · rfl
  · rename_i hcond
    cases c with
    | nil => exact absurd (Or.inl rfl) hcond
    | cons a t =>
      obtain ⟨m, hm⟩ : ∃ m, M - 3 = m + 1 := ⟨M - 4, by omega⟩
      rw [hm, List.take_succ_cons, List.cons_append]
      rfl

theorem isHeaderLine_truncateLine_false {c : List Char} {M : Nat} (hM : 4 ≤ M)
    (h : isHeaderLine c = false) : isHeaderLine (truncateLine c M) = false := by
  unfold isHeaderLine at h
  simp only [Bool.or_eq_false_iff] at h
  obtain ⟨⟨⟨h1, h2⟩, h3⟩, h4⟩ := h
  unfold truncateLine
  split
  · unfold isHeaderLine
    simp [h1, h2, h3, h4]
  · rename_i hcond
    have hn : M - 3 ≤ c.length := by
      rcases Nat.lt_or_ge M c.length with h' | h'
      · omega
      · exact absurd (Or.inr h') hcond
    unfold isHeaderLine
    simp only [Bool.or_eq_false_iff]
    refine ⟨⟨⟨?_, ?_⟩, ?_⟩, ?_⟩ <;>
      · rw [← Bool.not_eq_true, List.isPrefixOf_iff_prefix]
        refine not_prefix_truncated (by decide) ?_ hn
        rw [← List.isPrefixOf_iff_prefix]
        simp_all

theorem truncateLine_length_le (c : List Char) {M : Nat} (h3 : 3 ≤ M) :
    (truncateLine c M).length ≤ M := by
  unfold truncateLine
  split
  · rename_i hcond
    rcases hcond with h | h
    · simp [h]
    · exact h
  · rename_i hcond
    rw [List.length_append, List.length_take]
    have : M < c.length := by
      rcases Nat.lt_or_ge M c.length with h' | h'
      · exact h'
      · exact absurd (Or.inr h') hcond
    simp only [List.length_cons, List.length_nil]
    omega

theorem truncateLine_of_le {l : List Char} {M : Nat} (h : l.length ≤ M) :
    truncateLine l M = l := by
  unfold truncateLine
  rw [if_pos (Or.inr h)]

/-! ### Branch equations for the `simplify` loop -/

theorem simplifyLines_cons_header {C M s : Nat} {l : List Char} {ls : List (List Char)}
    (hH : isHeaderLine (compressLine l) = true) :
    simplifyLines C M s (l :: ls) = compressLine l :: simplifyLines C M s ls := by
  rw [simplifyLines]
  simp only [hH, if_pos]

theorem simplifyLines_cons_change {C M s : Nat} {l : List Char} {ls : List (List Char)}
    (hH : isHeaderLine (compressLine l) = false)
    (hC : isChangeLine (compressLine l) = true) :
    simplifyLines C M s (l :: ls) =
      truncateLine (compressLine l) M :: simplifyLines C M 0 ls := by
  rw [simplifyLines]
  simp only [hH, hC, Bool.false_eq_true, if_false, if_pos]

theorem simplifyLines_cons_ctx_lt {C M s : Nat} {l : List Char} {ls : List (List Char)}
    (hH : isHeaderLine (compressLine l) = false)
    (hC : isChangeLine (compressLine l) = false) (hs : s < C) :
    simplifyLines C M s (l :: ls) =
      truncateLine (compressLine l) M :: simplifyLines C M (s + 1) ls := by
  rw [simplifyLines]
  simp only [hH, hC, Bool.false_eq_true, if_false, hs, if_pos]

theorem simplifyLines_cons_ctx_eq {C M : Nat} {l : List Char} {ls : List (List Char)}
    (hH : isHeaderLine (compressLine l) = false)
    (hC : isChangeLine (compressLine l) = false) :
    simplifyLines C M C (l :: ls) = dotsMark :: simplifyLines C M (C + 1) ls := by
  rw [simplifyLines]
  simp only [hH, hC, Bool.false_eq_true, if_false, Nat.lt_irrefl, if_pos]

theorem simplifyLines_cons_ctx_gt {C M s : Nat} {l : List Char} {ls : List (List Char)}
    (hH : isHeaderLine (compressLine l) = false)
    (hC : isChangeLine (compressLine l) = false) (hs : C < s) :
    simplifyLines C M s (l :: ls) = simplifyLines C M s ls := by
  rw [simplifyLines]
  have h1 : ¬ s < C := by omega
  have h2 : ¬ s = C := by omega
  simp only [hH, hC, Bool.false_eq_true, if_false, h1, h2]

/-! ### Idempotence of the per-line loop -/

theorem compressLine_dotsMark : compressLine dotsMark = dotsMark := by decide

theorem simplifyLines_idem (C M : Nat) (hM : 4 ≤ M) (ls : List (List Char)) :
    ∀ s, simplifyLines C M s (simplifyLines C M s ls) = simplifyLines C M s ls := by
  induction ls with
  | nil => intro s; rfl
  | cons l ls ih =>
    intro s
    have h3 : 3 ≤ M := by omega
    cases hH : isHeaderLine (compressLine l) with
    | true =>
      rw [simplifyLines_cons_header hH,
        simplifyLines_cons_header (by rw [compressLine_idem]; exact hH),
        compressLine_idem, ih s]
    | false =>
      have hshape := compressLine_shape l
      have hfix : compressLine (truncateLine (compressLine l) M) =
          truncateLine (compressLine l) M := compressLine_truncateLine_fixed hshape M
      have hHt : isHeaderLine (truncateLine (compressLine l) M) = false :=
        isHeaderLine_truncateLine_false hM hH
      have htlen : truncateLine (truncateLine (compressLine l) M) M =
          truncateLine (compressLine l) M :=
        truncateLine_of_le (truncateLine_length_le _ h3)
      cases hC : isChangeLine (compressLine l) with
      | true =>
        have hCt : isChangeLine (truncateLine (compressLine l) M) = true := by
          rw [isChangeLine_truncateLine hM, hC]
        rw [simplifyLines_cons_change hH hC,
          simplifyLines_cons_change (by rw [hfix]; exact hHt) (by rw [hfix]; exact hCt),
          hfix, htlen, ih 0]
      | false =>
        have hCt : isChangeLine (truncateLine (compressLine l) M) = false := by
          rw [isChangeLine_truncateLine hM, hC]
        rcases Nat.lt_trichotomy s C with hs | hs | hs
        · rw [simplifyLines_cons_ctx_lt hH hC hs,
            simplifyLines_cons_ctx_lt (by rw [hfix]; exact hHt) (by rw [hfix]; exact hCt) hs,
            hfix, htlen, ih (s + 1)]
        · subst hs
          rw [simplifyLines_cons_ctx_eq hH hC,
            simplifyLines_cons_ctx_eq (by rw [compressLine_dotsMark]; decide)
              (by rw [compressLine_dotsMark]; decide),
            ih (s + 1)]
        · rw [simplifyLines_cons_ctx_gt hH hC hs, ih s]

/-! ### Lifting idempotence to `simplify` on strings -/

theorem newline_not_mem_compressLine (x : List Char) : '\n' ∉ compressLine x := by
  obtain ⟨p, k, b, heq, hk, hp, hh, hl, hs, ha⟩ := compressLine_shape x
  rw [heq]
  intro hmem
  rcases List.mem_append.mp hmem with hmem' | hmem'
  · rcases List.mem_append.mp hmem' with hmem'' | hmem''
    · rcases hp with rfl | rfl | rfl | rfl <;> simp_all
    · have := List.eq_of_mem_replicate hmem''
      cases this
  · simp only [wsIsSpace, List.all_eq_true] at hs
    have := hs _ hmem'
    simp only [Bool.or_eq_true, Bool.not_eq_eq_eq_not, Bool.not_true] at this
    rcases this with h' | h'
    · have : isWs '\n' = true := by decide
      rw [this] at h'; cases h'
    · have : ('\n' == ' ') = false := by decide
      rw [this] at h'; cases h'

theorem newline_not_mem_truncateLine {y : List Char} (h : '\n' ∉ y) (M : Nat) :
    '\n' ∉ truncateLine y M := by
  unfold truncateLine
  split
  · exact h
  · intro hmem
    rcases List.mem_append.mp hmem with h' | h'
    · exact h (List.mem_of_mem_take h')
    · simp at h'

theorem newline_not_mem_simplifyLines (C M : Nat) (ls : List (List Char)) :
    ∀ s, ∀ x ∈ simplifyLines C M s ls, '\n' ∉ x := by
  induction ls with
  | nil => intro s x hx; cases hx
  | cons l ls ih =>
    intro s x hx
    cases hH : isHeaderLine (compressLine l) with
    | true =>
      rw [simplifyLines_cons_header hH] at hx
      rcases List.mem_cons.mp hx with rfl | hx'
      · exact newline_not_mem_compressLine l
      · exact ih s x hx'
    | false =>
      cases hC : isChangeLine (compressLine l) with
      | true =>
        rw [simplifyLines_cons_change hH hC] at hx
        rcases List.mem_cons.mp hx with rfl | hx'
        · exact newline_not_mem_truncateLine (newline_not_mem_compressLine l) M
        · exact ih 0 x hx'
      | false =>
        rcases Nat.lt_trichotomy s C with hs | hs | hs
        · rw [simplifyLines_cons_ctx_lt hH hC hs] at hx
          rcases List.mem_cons.mp hx with rfl | hx'
          · exact newline_not_mem_truncateLine (newline_not_mem_compressLine l) M
          · exact ih (s + 1) x hx'
        · subst hs
          rw [simplifyLines_cons_ctx_eq hH hC] at hx
          rcases List.mem_cons.mp hx with rfl | hx'
          · decide
          · exact ih (s + 1) x hx'
        · rw [simplifyLines_cons_ctx_gt hH hC hs] at hx
          exact ih s x hx

theorem simplifyLines_cons_ne_nil (C M : Nat) (l : List Char) (ls : List (List Char)) :
    simplifyLines C M 0 (l :: ls) ≠ [] := by
  cases hH : isHeaderLine (compressLine l) with
  | true => rw [simplifyLines_cons_header hH]; exact List.cons_ne_nil _ _
  | false =>
    cases hC : isChangeLine (compressLine l) with
    | true => rw [simplifyLines_cons_change hH hC]; exact List.cons_ne_nil _ _
    | false =>
      cases hC0 : C with
      | zero => rw [← hC0, hC0, simplifyLines_cons_ctx_eq hH hC]; exact List.cons_ne_nil _ _
      | succ C' =>
        rw [simplifyLines_cons_ctx_lt hH hC (by omega)]
        exact List.cons_ne_nil _ _

theorem splitOn_newline_ne_nil (l : List Char) : l.splitOn '\n' ≠ [] := by
  rw [List.splitOn]
  exact List.splitOnP_ne_nil _ _

/-- C4 (amended): `DiffSimplifier.simplify` is idempotent under a fixed,
unchanged configuration whose `maxLineLength` is at least 4: for every input
string `d`, `simplify (simplify d) = simplify d`.  (With `maxLineLength ≤ 3`
truncation can turn a changed line into the bare `"..."` marker, which the
second pass reclassifies as a context line; see the counterexample.) -/
theorem c4_simplify_idem (cfg : DiffConfig) (hM : 4 ≤ cfg.maxLineLength) (d : String) :
    DiffSimplifier.simplify cfg (DiffSimplifier.simplify cfg d) =
      DiffSimplifier.simplify cfg d := by
  unfold DiffSimplifier.simplify
  cases hE : cfg.enabled with
  | false => simp
  | true =>
    simp only [Bool.not_true, Bool.false_eq_true, if_false]
    obtain ⟨l, ls, hin⟩ : ∃ l ls, d.data.splitOn '\n' = l :: ls := by
      cases hin : d.data.splitOn '\n' with
      | nil => exact absurd hin (splitOn_newline_ne_nil _)
      | cons a as => exact ⟨a, as, rfl⟩
    have hne : simplifyLines cfg.contextLines cfg.maxLineLength 0 (d.data.splitOn '\n') ≠ [] := by
      rw [hin]
      exact simplifyLines_cons_ne_nil _ _ _ _
    have hnl : ∀ x ∈ simplifyLines cfg.contextLines cfg.maxLineLength 0 (d.data.splitOn '\n'),
        '\n' ∉ x :=
      fun x hx => newline_not_mem_simplifyLines _ _ _ 0 x hx
    have hsplit : (String.mk (List.intercalate ['\n']
        (simplifyLines cfg.contextLines cfg.maxLineLength 0 (d.data.splitOn '\n')))).data.splitOn '\n' =
        simplifyLines cfg.contextLines cfg.maxLineLength 0 (d.data.splitOn '\n') := by
      exact List.splitOn_intercalate _ '\n' hnl hne
    rw [hsplit, simplifyLines_idem _ _ hM _ 0]

/-! ### Helper lemmas for `SvnProvider.getDiff` -/

theorem jsTrim_eq_nil_iff (l : List Char) : jsTrim l = [] ↔ l.all isWs = true := by
  unfold jsTrim trimRight trimLeft
  constructor
  · intro h
    rw [List.reverse_eq_nil_iff, List.dropWhile_eq_nil_iff] at h
    rw [List.all_eq_true]
    intro x hx
    have hx' : x ∈ l.takeWhile isWs ++ l.dropWhile isWs := by
      rw [List.takeWhile_append_dropWhile]
      exact hx
    rcases List.mem_append.mp hx' with h' | h'
    · exact List.mem_takeWhile_imp h'
    · exact h x (List.mem_reverse.mpr h')
  · intro h
    have h1 : l.dropWhile isWs = [] := by
      rw [List.dropWhile_eq_nil_iff]
      rw [List.all_eq_true] at h
      exact fun x hx => h x hx
    rw [h1]
    simp

theorem string_mk_eq_empty_iff (l : List Char) : (String.mk l = "") ↔ l = [] := by
  constructor
  · intro h
    have := congrArg String.data h
    simpa using this
  · intro h
    rw [h]

/-! ### Helper lemmas for `ReviewCodeCommand` -/

namespace ReviewCodeCommand

theorem replaceAllChar_append (c : Char) (r a b : List Char) :
    replaceAllChar c r (a ++ b) = replaceAllChar c r a ++ replaceAllChar c r b := by
  induction a with
  | nil => rfl
  | cons x t ih =>
    simp [replaceAllChar, ih, List.append_assoc]

theorem escapeHtml_cons (c : Char) (l : List Char) :
    escapeHtml (c :: l) = escapeChar c ++ escapeHtml l := by
  show escapeHtml ([c] ++ l) = _
  unfold escapeHtml
  rw [replaceAllChar_append, replaceAllChar_append, replaceAllChar_append,
    replaceAllChar_append, replaceAllChar_append]
  congr 1
  by_cases h1 : c = '&'
  · subst h1; decide
  · by_cases h2 : c = '<'
    · subst h2; decide
    · by_cases h3 : c = '>'
      · subst h3; decide
      · by_cases h4 : c = '"'
        · subst h4; decide
        · by_cases h5 : c = '\''
          · subst h5; decide
          · simp [replaceAllChar, escapeChar, h1, h2, h3, h4, h5]

theorem escapeChar_good (c : Char) :
    ∀ x ∈ escapeChar c, x ≠ '<' ∧ x ≠ '>' ∧ x ≠ '"' ∧ x ≠ '\'' := by
  unfold escapeChar
  by_cases h1 : c = '&'
  · subst h1; decide
  · rw [if_neg h1]
    by_cases h2 : c = '<'
    · subst h2; decide
    · rw [if_neg h2]
      by_cases h3 : c = '>'
      · subst h3; decide
      · rw [if_neg h3]
        by_cases h4 : c = '"'
        · subst h4; decide
        · rw [if_neg h4]
          by_cases h5 : c = '\''
          · subst h5; decide
          · rw [if_neg h5]
            intro x hx
            rw [List.mem_singleton] at hx
            subst hx
            exact ⟨h2, h3, h4, h5⟩

theorem suffix_append_cases {t a b : List Char} (h : t <:+ a ++ b) :
    t <:+ b ∨ ∃ s, s <:+ a ∧ s ≠ [] ∧ t = s ++ b := by
  obtain ⟨pre, hp⟩ := h
  have hlen : pre.length + t.length = a.length + b.length := by
    have := congrArg List.length hp
    simpa using this
  have ht : t = (a ++ b).drop pre.length := by
    rw [← hp, List.drop_left]
  by_cases hl : t.length ≤ b.length
  · left
    rw [ht, List.drop_append_eq_append_drop]
    have hz : a.drop pre.length = [] := by
      rw [List.drop_eq_nil_iff]
      omega
    rw [hz, List.nil_append]
    exact List.drop_suffix _ _
  · right
    refine ⟨a.drop pre.length, List.drop_suffix _ _, ?_, ?_⟩
    · intro hnil
      rw [List.drop_eq_nil_iff] at hnil
      omega
    · rw [ht, List.drop_append_eq_append_drop]
      have hz : pre.length - a.length = 0 := by omega
      rw [hz, List.drop_zero]

theorem amp_tails_head : ∀ s ∈ ("&amp;".data).tails, s.head? = some '&' → s = "&amp;".data := by
  decide

theorem lt_tails_head : ∀ s ∈ ("&lt;".data).tails, s.head? = some '&' → s = "&lt;".data := by
  decide

theorem gt_tails_head : ∀ s ∈ ("&gt;".data).tails, s.head? = some '&' → s = "&gt;".data := by
  decide

theorem quot_tails_head : ∀ s ∈ ("&quot;".data).tails, s.head? = some '&' → s = "&quot;".data := by
  decide

theorem apos_tails_head : ∀ s ∈ ("&#039;".data).tails, s.head? = some '&' → s = "&#039;".data := by
  decide

theorem escapeHtml_no_markup (l : List Char) :
    ∀ x ∈ escapeHtml l, x ≠ '<' ∧ x ≠ '>' ∧ x ≠ '"' ∧ x ≠ '\'' := by
  induction l with
  | nil => intro x hx; cases hx
  | cons c l' ih =>
    rw [escapeHtml_cons]
    intro x hx
    rcases List.mem_append.mp hx with h' | h'
    · exact escapeChar_good c x h'
    · exact ih x h'

theorem escapeHtml_amp_entity (l : List Char) :
    ∀ t, t <:+ escapeHtml l → t.head? = some '&' →
      ("&amp;".data <+: t) ∨ ("&lt;".data <+: t) ∨ ("&gt;".data <+: t) ∨
      ("&quot;".data <+: t) ∨ ("&#039;".data <+: t) := by
  induction l with
  | nil =>
    intro t ht hh
    rw [show escapeHtml [] = [] from rfl, List.suffix_nil] at ht
    subst ht
    cases hh
  | cons c l' ih =>
    intro t ht hh
    rw [escapeHtml_cons] at ht
    rcases suffix_append_cases ht with h' | ⟨s, hsa, hsne, rfl⟩
    · exact ih t h' hh
    · cases s with
      | nil => exact absurd rfl hsne
      | cons x s' =>
        rw [List.cons_append, List.head?_cons, Option.some_inj] at hh
        subst hh
        unfold escapeChar at hsa
        by_cases h1 : c = '&'
        · rw [if_pos h1] at hsa
          have heq := amp_tails_head _ ((List.mem_tails _ _).mpr hsa) rfl
          rw [heq]
          exact Or.inl (List.prefix_append _ _)
        · rw [if_neg h1] at hsa
          by_cases h2 : c = '<'
          · rw [if_pos h2] at hsa
            have heq := lt_tails_head _ ((List.mem_tails _ _).mpr hsa) rfl
            rw [heq]
            exact Or.inr (Or.inl (List.prefix_append _ _))
          · rw [if_neg h2] at hsa
            by_cases h3 : c = '>'
            · rw [if_pos h3] at hsa
              have heq := gt_tails_head _ ((List.mem_tails _ _).mpr hsa) rfl
              rw [heq]
              exact Or.inr (Or.inr (Or.inl (List.prefix_append _ _)))
            · rw [if_neg h3] at hsa
              by_cases h4 : c = '"'
              · rw [if_pos h4] at hsa
                have heq := quot_tails_head _ ((List.mem_tails _ _).mpr hsa) rfl
                rw [heq]
                exact Or.inr (Or.inr (Or.inr (Or.inl (List.prefix_append _ _))))
              · rw [if_neg h4] at hsa
                by_cases h5 : c = '\''
                · rw [if_pos h5] at hsa
                  have heq := apos_tails_head _ ((List.mem_tails _ _).mpr hsa) rfl
                  rw [heq]
                  exact Or.inr (Or.inr (Or.inr (Or.inr (List.prefix_append _ _))))
                · rw [if_neg h5] at hsa
                  rcases List.suffix_cons_iff.mp hsa with heq | hsuf
                  · have hce : '&' = c := by
                      have h' := congrArg List.head? heq
                      simpa using h'
                    exact absurd hce.symm h1
                  · rw [List.suffix_nil] at hsuf
                    cases hsuf

/-- Review call threw for this diff entry. -/
def reviewFailed (rOr : ReviewOracle) (pd : String × String) : Bool :=
  match rOr pd.1 pd.2 with
  | .error _ => true
  | _ => false

/-- Extract the referenced file name from a review-failure warning. -/
def warnName : Notif → Option String
  | .warnReviewFileFailed n => some n
  | _ => none

theorem mem_collectDiffs {dOr : DiffOracle} {rs : List String} {f d : String} :
    (f, d) ∈ collectDiffs dOr rs ↔ f ∈ rs ∧ dOr f = .ok (some d) ∧ d ≠ "" := by
  unfold collectDiffs
  rw [List.mem_filterMap]
  constructor
  · rintro ⟨r, hr, heq⟩
    cases ho : dOr r with
    | error e => simp [ho] at heq
    | ok o =>
      cases o with
      | none => simp [ho] at heq
      | some d' =>
        by_cases hd : d' = ""
        · simp [ho, hd] at heq
        · simp only [ho, if_neg hd, Option.some_inj, Prod.mk.injEq] at heq
          obtain ⟨rfl, rfl⟩ := heq
          exact ⟨hr, ho, hd⟩
  · rintro ⟨hf, ho, hd⟩
    refine ⟨f, hf, ?_⟩
    simp [ho, hd]

theorem mem_collectReviews {rOr : ReviewOracle} {diffs : List (String × String)} {f c : String} :
    (f, c) ∈ collectReviews rOr diffs ↔
      ∃ d, (f, d) ∈ diffs ∧ rOr f d = .ok (some c) ∧ c ≠ "" := by
  unfold collectReviews
  rw [List.mem_filterMap]
  constructor
  · rintro ⟨⟨g, d⟩, hpd, heq⟩
    cases ho : rOr g d with
    | error e => simp [ho] at heq
    | ok o =>
      cases o with
      | none => simp [ho] at heq
      | some c' =>
        by_cases hc : c' = ""
        · simp [ho, hc] at heq
        · simp only [ho, if_neg hc, Option.some_inj, Prod.mk.injEq] at heq
          obtain ⟨rfl, rfl⟩ := heq
          exact ⟨d, hpd, ho, hc⟩
  · rintro ⟨d, hpd, ho, hc⟩
    refine ⟨(f, d), hpd, ?_⟩
    simp [ho, hc]

theorem warnName_reviewWarnings (rOr : ReviewOracle) (diffs : List (String × String)) :
    (reviewWarnings rOr diffs).filterMap warnName =
      (diffs.filter (reviewFailed rOr)).map (fun pd => basename pd.1) := by
  induction diffs with
  | nil => rfl
  | cons pd t ih =>
    cases ho : rOr pd.1 pd.2 with
    | error e =>
      unfold reviewWarnings at ih ⊢
      simp [List.filterMap_cons, ho, List.filter_cons, reviewFailed, warnName, ih]
    | ok o =>
      unfold reviewWarnings at ih ⊢
      simp [List.filterMap_cons, ho, List.filter_cons, reviewFailed, ih]

end ReviewCodeCommand

/-! ### Context-run behaviour of the `simplify` loop -/

theorem simplifyLines_ctx_run_aux (C M : Nat) (rest : List (List Char)) :
    ∀ (run' : List (List Char)) (l : List Char) (s : Nat),
      s + (l :: run').length = C + 1 →
      (∀ x ∈ l :: run', isHeaderLine (compressLine x) = false ∧
        isChangeLine (compressLine x) = false) →
      simplifyLines C M s ((l :: run') ++ rest) =
        (l :: run').dropLast.map (fun x => truncateLine (compressLine x) M) ++
          dotsMark :: simplifyLines C M (C + 1) rest := by
  intro run'
  induction run' with
  | nil =>
    intro l s hlen hctx
    have hs : s = C := by simp at hlen; omega
    subst hs
    obtain ⟨hH, hC⟩ := hctx l (List.mem_cons_self _ _)
    rw [List.cons_append, List.nil_append, simplifyLines_cons_ctx_eq hH hC]
    rfl
  | cons l₂ run'' ih =>
    intro l s hlen hctx
    have hs : s < C := by simp at hlen; omega
    obtain ⟨hH, hC⟩ := hctx l (List.mem_cons_self _ _)
    rw [List.cons_append, simplifyLines_cons_ctx_lt hH hC hs]
    have hlen' : (s + 1) + (l₂ :: run'').length = C + 1 := by simp at hlen ⊢; omega
    have hctx' : ∀ x ∈ l₂ :: run'', isHeaderLine (compressLine x) = false ∧
        isChangeLine (compressLine x) = false :=
      fun x hx => hctx x (List.mem_cons_of_mem _ hx)
    rw [ih l₂ (s + 1) hlen' hctx']
    rw [List.dropLast_cons₂, List.map_cons, List.cons_append]

/-! ## Claim theorems -/

/-- C1: `OpenAIProvider.generateResponse` equals the spec-stated retry
policy: a vendor failure whose message contains "maximum context length" is
retried at most 2 times, each retry multiplying the truncation budget
(initially the model's input limit, defaulting to 16385) by 0.8 with
flooring; a third consecutive such failure, or any failure without the
phrase, throws the wrapped localized error with no further retry; success on
any attempt returns the text with the optional token counters. -/
theorem c1_generateResponse_retry (oracle : OpenAIProvider.Oracle)
    (p : OpenAIProvider.AIRequestParams) :
    OpenAIProvider.generateResponse oracle p = OpenAIProvider.generateResponseSpec oracle p := by
  unfold OpenAIProvider.generateResponse OpenAIProvider.generateResponseSpec
  show OpenAIProvider.genLoop oracle p.diff 2 0 (OpenAIProvider.inputBudget p.modelInputTokens) = _
  rw [OpenAIProvider.genLoop]
  cases h0 : oracle 0 ⟨strTake p.diff.data (OpenAIProvider.inputBudget p.modelInputTokens)⟩ with
  | ok c => simp [h0]
  | error m0 =>
    cases hc0 : strContains m0.data OpenAIProvider.ctxLenPhrase with
    | false => simp [h0, hc0]
    | true =>
      simp only [hc0, if_pos, if_true]
      rw [OpenAIProvider.genLoop]
      cases h1 : oracle 1
          ⟨strTake p.diff.data (OpenAIProvider.inputBudget p.modelInputTokens * 4 / 5)⟩ with
      | ok c => simp [h0, hc0]
      | error m1 =>
        cases hc1 : strContains m1.data OpenAIProvider.ctxLenPhrase with
        | false => simp [h0, hc0, hc1]
        | true =>
          simp only [hc1, if_pos, if_true]
          rw [OpenAIProvider.genLoop]
          cases h2 : oracle 2
              ⟨strTake p.diff.data (OpenAIProvider.inputBudget p.modelInputTokens * 4 / 5 * 4 / 5)⟩ with
          | ok c => simp [h0, hc0, hc1]
          | error m2 => simp [h0, hc0, hc1]

/-- C2 counterexample: the claim as stated is false.  With `contextLines = 1`
the input has a maximal run of exactly `contextLines + 1 = 2` consecutive
context lines (`p`, `q`) delimited by the header `Index: f`; because the
header does not reset the exhausted counter, that run produces no output at
all — neither a literal line nor a `...` marker (`p` never appears in the
output). -/
theorem c2_context_run_cex :
    DiffSimplifier.simplify ⟨true, 1, 120⟩ "+a\nx\ny\nIndex: f\np\nq" =
      "+a\nx\n...\nIndex: f" ∧
    strContains ("+a\nx\n...\nIndex: f").data ['p'] = false := by
  constructor
  · rfl
  · decide

/-- C2 (amended): a run of exactly `contextLines + 1` consecutive context
lines processed with a fresh context counter — as at the start of the input
or immediately after a changed (`+`/`-`) line — produces exactly
`contextLines` literal (compressed, truncated) lines followed by a single
`"..."` marker line, not `contextLines + 1` literal lines. -/
theorem c2_context_run_boundary (C M : Nat) (run rest : List (List Char))
    (hlen : run.length = C + 1)
    (hctx : ∀ x ∈ run, isHeaderLine (compressLine x) = false ∧
      isChangeLine (compressLine x) = false) :
    simplifyLines C M 0 (run ++ rest) =
      (run.take C).map (fun x => truncateLine (compressLine x) M) ++
        dotsMark :: simplifyLines C M (C + 1) rest := by
  cases run with
  | nil => simp at hlen
  | cons l run' =>
    have h := simplifyLines_ctx_run_aux C M rest run' l 0 (by simpa using hlen) hctx
    rw [h, List.dropLast_eq_take, hlen]
    simp

/-- C2 witness: the amended theorem at `contextLines = 1`,
`maxLineLength = 120`, with the two-line context run `a`, `b`. -/
theorem c2_context_run_boundary_witness :
    simplifyLines 1 120 0 ([['a'], ['b']] ++ []) =
      (([['a'], ['b']] : List (List Char)).take 1).map
        (fun x => truncateLine (compressLine x) 120) ++
        dotsMark :: simplifyLines 1 120 2 [] :=
  c2_context_run_boundary 1 120 [['a'], ['b']] [] (by decide) (by decide)

/-- C3 counterexample: the claim as stated is false.  After the header
`--- h` the context counter is not reset: with `contextLines = 1` the
context line `z` following the header is dropped instead of being kept
literally as the claim requires. -/
theorem c3_counter_reset_cex :
    DiffSimplifier.simplify ⟨true, 1, 120⟩ "+a\nx\ny\n--- h\nz" =
      "+a\nx\n...\n--- h" ∧
    strContains ("+a\nx\n...\n--- h").data ['z'] = false := by
  constructor
  · rfl
  · decide

/-- C3 (amended): in `DiffSimplifier.simplify`, the consecutive-context-line
counter is reset only by a changed (`+`/`-`) line; a header line passes
through (compressed, untruncated) and is never dropped, but it preserves the
counter unchanged instead of resetting it. -/
theorem c3_counter_reset_policy (C M s : Nat) (l : List Char) (ls : List (List Char)) :
    (isHeaderLine (compressLine l) = true →
      simplifyLines C M s (l :: ls) = compressLine l :: simplifyLines C M s ls) ∧
    (isHeaderLine (compressLine l) = false → isChangeLine (compressLine l) = true →
      simplifyLines C M s (l :: ls) =
        truncateLine (compressLine l) M :: simplifyLines C M 0 ls) :=
  ⟨fun hH => simplifyLines_cons_header hH,
   fun hH hC => simplifyLines_cons_change hH hC⟩

/-- C3 witness: the header clause at the header line `--- a` with counter 5,
and the change clause at the changed line `+zz`. -/
theorem c3_counter_reset_policy_witness :
    simplifyLines 2 120 5 [("--- a").data] =
      compressLine ("--- a").data :: simplifyLines 2 120 5 [] ∧
    simplifyLines 2 120 5 [("+zz").data] =
      truncateLine (compressLine ("+zz").data) 120 :: simplifyLines 2 120 0 [] :=
  ⟨(c3_counter_reset_policy 2 120 5 ("--- a").data []).1 (by decide),
   (c3_counter_reset_policy 2 120 5 ("+zz").data []).2 (by decide) (by decide)⟩

/-- C4 counterexample: the claim as stated is false.  With
`maxLineLength = 3` every long changed line truncates to the bare `"..."`,
which the second pass treats as a context line; with `contextLines = 1`
the second pass then compresses the three markers to two. -/
theorem c4_simplify_idem_cex :
    DiffSimplifier.simplify ⟨true, 1, 3⟩
        (DiffSimplifier.simplify ⟨true, 1, 3⟩ "+aaaa\n+bbbb\n+cccc") ≠
      DiffSimplifier.simplify ⟨true, 1, 3⟩ "+aaaa\n+bbbb\n+cccc" := by
  decide

/-- C4 witness: idempotence at the default-like configuration
(`contextLines = 3`, `maxLineLength = 120`) on a diff with markers, headers,
context runs and whitespace. -/
theorem c4_simplify_idem_witness :
    DiffSimplifier.simplify ⟨true, 3, 120⟩
        (DiffSimplifier.simplify ⟨true, 3, 120⟩ "--- a\n+x   y\n a\n b\n c\n d\n e\n-q") =
      DiffSimplifier.simplify ⟨true, 3, 120⟩ "--- a\n+x   y\n a\n b\n c\n d\n e\n-q" :=
  c4_simplify_idem ⟨true, 3, 120⟩ (by decide) "--- a\n+x   y\n a\n b\n c\n d\n e\n-q"

/-- C5 counterexample: the claim as stated is false.  With
`maxLineLength = 2` (below the 3-character ellipsis) the truncated line is
the 3-character `"..."`, not exactly `maxLineLength` characters. -/
theorem c5_truncateLine_cex : (truncateLine ("abcd").data 2).length ≠ 2 := by
  decide

/-- C5 (amended): for every `maxLineLength ≥ 3`, a line longer than
`maxLineLength` is truncated by `DiffSimplifier.truncateLine` to exactly
`maxLineLength` characters ending in `"..."`, and a line of length at most
`maxLineLength` is returned unchanged by the truncation step. -/
theorem c5_truncateLine_exact (l : List Char) (M : Nat) (h3 : 3 ≤ M) :
    (l.length ≤ M → truncateLine l M = l) ∧
    (M < l.length → (truncateLine l M).length = M ∧
      ['.', '.', '.'] <:+ truncateLine l M) := by
  constructor
  · exact fun h => truncateLine_of_le h
  · intro hlt
    have hcond : ¬(l = [] ∨ l.length ≤ M) := by
      rintro (rfl | h)
      · simp at hlt
      · omega
    constructor
    · unfold truncateLine
      rw [if_neg hcond, List.length_append, List.length_take]
      simp only [List.length_cons, List.length_nil]
      omega
    · unfold truncateLine
      rw [if_neg hcond]
      exact List.suffix_append _ _

/-- C5 witness: the eight-character line `abcdefgh` at `maxLineLength = 5`
truncates to exactly 5 characters ending in `...`. -/
theorem c5_truncateLine_exact_witness :
    (truncateLine ("abcdefgh").data 5).length = 5 ∧
    ['.', '.', '.'] <:+ truncateLine ("abcdefgh").data 5 :=
  (c5_truncateLine_exact ("abcdefgh").data 5 (by decide)).2 (by decide)

/-- C6: `SvnProvider.getDiff` equals its spec reading: a non-empty error
stream yields an error carrying that text; an empty error stream with empty
or whitespace-only standard output yields the localized no-changes error
(not a crash or a value); otherwise the diff is returned, routed through
`DiffSimplifier.simplify` exactly when simplification is enabled. -/
theorem c6_getDiff_spec (cfg : DiffConfig) (en : Option Bool) (stdout stderr : String) :
    SvnProvider.getDiff cfg en stdout stderr = SvnProvider.getDiffSpec cfg en stdout stderr := by
  unfold SvnProvider.getDiff SvnProvider.getDiffSpec
  by_cases hs : stderr = ""
  · have hs' : ¬ (stderr ≠ "") := by simp [hs]
    have hsd : stderr.data = [] := by rw [hs]
    rw [if_neg hs', if_pos hsd]
    by_cases ht : stdout.data.all isWs = true
    · have h1 : (String.mk (jsTrim stdout.data) = "") :=
        (string_mk_eq_empty_iff _).mpr ((jsTrim_eq_nil_iff _).mpr ht)
      rw [if_pos h1, if_pos ht]
    · have h1 : ¬ (String.mk (jsTrim stdout.data) = "") := fun h =>
        ht ((jsTrim_eq_nil_iff _).mp ((string_mk_eq_empty_iff _).mp h))
      rw [if_neg h1, if_neg ht]
  · have hsd : ¬ (stderr.data = []) := by
      intro h
      exact hs (by cases stderr; simp_all)
    rw [if_pos hs, if_neg hsd]

/-- C7: after a change event affecting exactly one leaf key `k0`,
`ConfigurationManager.updateConfigCache` leaves the cache entry of every
other key `k` unchanged, and a subsequent `getConfig k` with `useCache=true`
returns the value cached before the event. -/
theorem c7_config_cache_frame (live : String → Option String)
    (c : ConfigurationManager.ConfigCache) (k0 k : String) (w : Option String)
    (hne : k ≠ k0) (hc : c k = some w) :
    (ConfigurationManager.updateConfigCache live [k0] c) k = some w ∧
    (ConfigurationManager.getConfig live
      (ConfigurationManager.updateConfigCache live [k0] c) k true).1 = w := by
  have hup : (ConfigurationManager.updateConfigCache live [k0] c) k = some w := by
    unfold ConfigurationManager.updateConfigCache
    simp only [List.foldl_cons, List.foldl_nil]
    cases live k0 with
    | none => exact hc
    | some v =>
      show (if k = k0 then some (some v) else c k) = some w
      rw [if_neg hne]
      exact hc
  refine ⟨hup, ?_⟩
  unfold ConfigurationManager.getConfig
  simp [hup]

/-- C7 witness: a change to key `b` leaves the entry cached for key `a`
untouched, and `getConfig "a"` keeps returning the old value even though the
live store now differs. -/
theorem c7_config_cache_frame_witness :
    (ConfigurationManager.updateConfigCache (fun _ => some "new") ["b"]
      (fun k => if k = "a" then some (some "old") else none)) "a" = some (some "old") ∧
    (ConfigurationManager.getConfig (fun _ => some "new")
      (ConfigurationManager.updateConfigCache (fun _ => some "new") ["b"]
        (fun k => if k = "a" then some (some "old") else none)) "a" true).1 = some "old" :=
  c7_config_cache_frame (fun _ => some "new")
    (fun k => if k = "a" then some (some "old") else none) "b" "a" (some "old")
    (by decide) (by decide)

/-- C8 counterexample: the claim as stated is false.  In a 3-file batch
where file `f2`'s diff call throws, the rendered result contains `f1` and
`f3` as the claim expects, but the notification list contains no warning
referencing `f2` at all — a failed diff call is only logged, never warned
from `ReviewCodeCommand.execute`. -/
theorem c8_batch_cex :
    ReviewCodeCommand.executeBatch
        (fun r => if r = "f2" then .error "boom" else .ok (some "d"))
        (fun _ _ => .ok (some "r")) ["f1", "f2", "f3"] =
      ⟨some [("f1", "r"), ("f3", "r")], [.infoReviewComplete 2]⟩ := by
  decide

/-- C8 (amended): in `ReviewCodeCommand.execute`, per-file failures are
isolated: the rendered result contains exactly the files whose diff and
review both succeeded (with truthy results); each file whose review call
threw yields one warning notification referencing its basename, while a
failed diff call yields no notification from the command; and the overall
review-failed error is surfaced exactly when at least one diff succeeded but
no review did. -/
theorem c8_batch_policy (dOr : ReviewCodeCommand.DiffOracle)
    (rOr : ReviewCodeCommand.ReviewOracle) (rs : List String) :
    (∀ m, (ReviewCodeCommand.executeBatch dOr rOr rs).rendered = some m →
      ∀ f c, (f, c) ∈ m ↔
        ∃ d, (f, d) ∈ ReviewCodeCommand.collectDiffs dOr rs ∧
          rOr f d = .ok (some c) ∧ c ≠ "") ∧
    ((ReviewCodeCommand.executeBatch dOr rOr rs).notifs.filterMap ReviewCodeCommand.warnName =
      ((ReviewCodeCommand.collectDiffs dOr rs).filter
        (ReviewCodeCommand.reviewFailed rOr)).map
        (fun pd => ReviewCodeCommand.basename pd.1)) ∧
    (ReviewCodeCommand.Notif.errReviewAllFailed ∈
        (ReviewCodeCommand.executeBatch dOr rOr rs).notifs ↔
      (ReviewCodeCommand.collectDiffs dOr rs ≠ [] ∧
        ReviewCodeCommand.collectReviews rOr (ReviewCodeCommand.collectDiffs dOr rs) = [])) ∧
    (∀ f d, (f, d) ∈ ReviewCodeCommand.collectDiffs dOr rs ↔
      f ∈ rs ∧ dOr f = .ok (some d) ∧ d ≠ "") := by
  refine ⟨?_, ?_, ?_, fun f d => ReviewCodeCommand.mem_collectDiffs⟩
  · intro m hm f c
    unfold ReviewCodeCommand.executeBatch at hm
    by_cases h1 : ReviewCodeCommand.collectDiffs dOr rs = []
    · rw [if_pos h1] at hm; cases hm
    · rw [if_neg h1] at hm
      by_cases h2 : ReviewCodeCommand.collectReviews rOr (ReviewCodeCommand.collectDiffs dOr rs) = []
      · simp only [h2, if_pos] at hm
        cases hm
      · simp only [if_neg h2] at hm
        rw [Option.some_inj] at hm
        subst hm
        exact ReviewCodeCommand.mem_collectReviews
  · unfold ReviewCodeCommand.executeBatch
    by_cases h1 : ReviewCodeCommand.collectDiffs dOr rs = []
    · rw [if_pos h1, h1]
      rfl
    · rw [if_neg h1]
      by_cases h2 : ReviewCodeCommand.collectReviews rOr (ReviewCodeCommand.collectDiffs dOr rs) = []
      · simp only [h2, if_pos]
        rw [List.filterMap_append, ReviewCodeCommand.warnName_reviewWarnings]
        simp [ReviewCodeCommand.warnName]
      · simp only [if_neg h2]
        rw [List.filterMap_append, ReviewCodeCommand.warnName_reviewWarnings]
        simp [ReviewCodeCommand.warnName]
  · unfold ReviewCodeCommand.executeBatch
    by_cases h1 : ReviewCodeCommand.collectDiffs dOr rs = []
    · rw [if_pos h1]
      simp [h1]
    · rw [if_neg h1]
      by_cases h2 : ReviewCodeCommand.collectReviews rOr (ReviewCodeCommand.collectDiffs dOr rs) = []
      · simp only [h2, if_pos]
        simp [h1, h2]
      · simp only [if_neg h2]
        constructor
        · intro hmem
          rcases List.mem_append.mp hmem with h' | h'
          · exfalso
            unfold ReviewCodeCommand.reviewWarnings at h'
            obtain ⟨pd, hpd, heq⟩ := List.mem_filterMap.mp h'
            cases ho : rOr pd.1 pd.2 with
            | error e => simp [ho] at heq
            | ok o => simp [ho] at heq
          · simp at h'
        · rintro ⟨hd, hr⟩
          exact absurd hr h2

/-- C8 witness: the membership clause applied to the 3-file scenario in
which file `f2`'s diff call throws: `f1`'s review appears in the rendered
map precisely because its diff and review both succeeded. -/
theorem c8_batch_policy_witness :
    (("f1", "r") ∈ [(("f1" : String), ("r" : String)), ("f3", "r")] ↔
      ∃ d, ("f1", d) ∈ ReviewCodeCommand.collectDiffs
          (fun r => if r = "f2" then .error "boom" else .ok (some "d")) ["f1", "f2", "f3"] ∧
        (fun (_ : String) (_ : String) =>
          (Except.ok (some "r") : Except String (Option String))) "f1" d = .ok (some "r") ∧
        ("r" : String) ≠ "") :=
  (c8_batch_policy (fun r => if r = "f2" then .error "boom" else .ok (some "d"))
    (fun _ _ => .ok (some "r")) ["f1", "f2", "f3"]).1
    [("f1", "r"), ("f3", "r")] (by decide) "f1" "r"

/-- C9: `ReviewCodeCommand.escapeHtml` output contains no `<`, `>`, `"` or
apostrophe character, and every `&` in the output begins one of the entities
`&amp;`, `&lt;`, `&gt;`, `&quot;`, `&#039;`; consequently the webview HTML
fragments built from file names and review text embed no unescaped markup. -/
theorem c9_escapeHtml_safe (l : List Char) :
    (∀ x ∈ ReviewCodeCommand.escapeHtml l, x ≠ '<' ∧ x ≠ '>' ∧ x ≠ '"' ∧ x ≠ '\'') ∧
    (∀ t, t <:+ ReviewCodeCommand.escapeHtml l → t.head? = some '&' →
      ("&amp;".data <+: t) ∨ ("&lt;".data <+: t) ∨ ("&gt;".data <+: t) ∨
      ("&quot;".data <+: t) ∨ ("&#039;".data <+: t)) :=
  ⟨ReviewCodeCommand.escapeHtml_no_markup l, ReviewCodeCommand.escapeHtml_amp_entity l⟩

/-- C9 witness: the suffix of `escapeHtml "a&b"` starting at its `&` begins
with the `&amp;` entity. -/
theorem c9_escapeHtml_safe_witness :
    ("&amp;".data <+: ("&amp;b").data) ∨ ("&lt;".data <+: ("&amp;b").data) ∨
    ("&gt;".data <+: ("&amp;b").data) ∨ ("&quot;".data <+: ("&amp;b").data) ∨
    ("&#039;".data <+: ("&amp;b").data) :=
  (c9_escapeHtml_safe ("a&b").data).2 ("&amp;b").data ⟨['a'], by decide⟩ (by decide)

/-- C10: when a change event reports key `k0` as changed but the live value
re-read is `undefined`, `ConfigurationManager.updateConfigCache` leaves the
existing cache entry in place, so a later `getConfig k0` with
`useCache=true` returns the stale pre-change value rather than undefined. -/
theorem c10_stale_cache_entry (live : String → Option String)
    (c : ConfigurationManager.ConfigCache) (k0 : String) (v : String)
    (hlive : live k0 = none) (hc : c k0 = some (some v)) :
    (ConfigurationManager.updateConfigCache live [k0] c) k0 = some (some v) ∧
    (ConfigurationManager.getConfig live
      (ConfigurationManager.updateConfigCache live [k0] c) k0 true).1 = some v := by
  have hup : (ConfigurationManager.updateConfigCache live [k0] c) k0 = some (some v) := by
    unfold ConfigurationManager.updateConfigCache
    simp only [List.foldl_cons, List.foldl_nil, hlive]
    exact hc
  refine ⟨hup, ?_⟩
  unfold ConfigurationManager.getConfig
  simp [hup]

/-- C10 witness: key `x` is reported changed while its live value is
undefined; the cached value `stale` survives and is what `getConfig`
returns. -/
theorem c10_stale_cache_entry_witness :
    (ConfigurationManager.updateConfigCache (fun _ => none) ["x"]
      (fun k => if k = "x" then some (some "stale") else none)) "x" = some (some "stale") ∧
    (ConfigurationManager.getConfig (fun _ => none)
      (ConfigurationManager.updateConfigCache (fun _ => none) ["x"]
        (fun k => if k = "x" then some (some "stale") else none)) "x" true).1 = some "stale" :=
  c10_stale_cache_entry (fun _ => none)
    (fun k => if k = "x" then some (some "stale") else none) "x" "stale"
    (by decide) (by decide)

end SvnCommitGen
